import Mathlib

/-!
Shallow embedding of the core pipeline of the GraphRAG question-answering
repository: the intent classifier (`intent.py`), the query-spec builder
(`cypher_builder.py`) and the ranking engine (`ranker.py`).  Strings are
modelled as Lean `String`/`List Char`; Python floats are modelled as `ℚ`;
Python dicts holding row data are modelled as association lists with
`Option`-valued lookup.
-/

/-- True when `needle` occurs as a contiguous substring of `hay`
(the Python `in` operator on strings); the empty needle matches anywhere. -/
def containsSub (needle : List Char) : List Char → Bool
  | [] => needle.isEmpty
  | c :: rest => needle.isPrefixOf (c :: rest) || containsSub needle rest

/-- Lower-case a character list (Python `str.lower`, ASCII range). -/
def lowerList (l : List Char) : List Char := l.map Char.toLower

/-- Strip leading and trailing whitespace (Python `str.strip`). -/
def stripWs (l : List Char) : List Char :=
  ((l.dropWhile Char.isWhitespace).reverse.dropWhile Char.isWhitespace).reverse

/-- Replace every maximal run of whitespace by a single space
(Python `re.sub(r"\s+", " ", ·)`). -/
def collapseWs : List Char → List Char
  | [] => []
  | [c] => if c.isWhitespace then [' '] else [c]
  | c :: d :: rest =>
    if c.isWhitespace && d.isWhitespace then collapseWs (d :: rest)
    else (if c.isWhitespace then ' ' else c) :: collapseWs (d :: rest)

/-- Function `_normalize` from `intent.py`: lower-case, strip, collapse whitespace. -/
def normalizeText (text : String) : List Char :=
  collapseWs (stripWs (lowerList text.toList))

/-- The ordered intent keyword table `INTENTS` from `intent.py`
(Python dicts preserve insertion order, so iteration follows this order). -/
def INTENTS : List (String × List String) :=
  [("symptoms", ["symptom", "symptoms"]),
   ("risk_factors", ["risk", "risk factor", "risk factors", "increase the risk"]),
   ("diagnostic_techniques", ["diagnostic", "diagnosis", "technique", "techniques"]),
   ("dataset", ["dataset", "data set", "instances", "features", "source"]),
   ("cancer_types", ["type of cancer", "types of cancer", "cancer types", "stage", "stages"]),
   ("results", ["accuracy", "result", "results", "benchmark", "performance", "best model"]),
   ("conclusion", ["conclusion", "summary"])]

/-- Inner loop of `_detect_intent`: scan the (intent, keywords) pairs in
table order, returning the first intent one of whose keywords occurs in the
normalized question; `generic` if none. -/
def findIntent (q : List Char) : List (String × List String) → String
  | [] => "generic"
  | (intent, kws) :: rest =>
    if kws.any (fun kw => containsSub kw.toList q) then intent else findIntent q rest

/-- Function `_detect_intent` from `intent.py`. -/
def detectIntent (question : String) : String :=
  findIntent (normalizeText question) INTENTS

/-- Scanner for `re.findall(r"[a-zA-Z][a-zA-Z\-]{2,}", ·)` in `_tokenize`
(`ranker.py`): a token character is an ASCII letter or a hyphen. -/
def isTokChar (c : Char) : Bool := c.isAlpha || c = '-'

/-- The scan `re.findall` of the pattern `[a-zA-Z][a-zA-Z\-]{2,}` over a character
list: at each position, a match must start with a letter and greedily take
at least two more token characters; on failure the scan advances one
character, on success it resumes after the match.  The extra `Nat` is pure
fuel making the recursion structural; one unit per consumed character
suffices, and `findallTok` instantiates it with the list length. -/
def findallTokF : Nat → List Char → List (List Char)
  | _, [] => []
  | 0, _ :: _ => []
  | fuel + 1, c :: cs =>
    if c.isAlpha then
      if 2 ≤ (cs.takeWhile isTokChar).length then
        (c :: cs.takeWhile isTokChar) :: findallTokF fuel (cs.dropWhile isTokChar)
      else findallTokF fuel cs
    else findallTokF fuel cs

/-- The regex scan with enough fuel for the whole list. -/
def findallTok (l : List Char) : List (List Char) := findallTokF l.length l

/-- Function `_tokenize` from `ranker.py`: lower-case the text, then extract the
regex matches. -/
def tokenize (text : String) : List (List Char) :=
  findallTok (lowerList text.toList)

/-- Function `lexical_overlap_score` from `ranker.py`.  Python token sets are
modelled by deduplicated token lists; the intersection size is the number
of distinct question tokens also occurring among the text tokens. -/
def lexicalOverlapScore (question text : String) : ℚ :=
  let qTokens := (tokenize question).dedup
  let tTokens := (tokenize text).dedup
  if qTokens.isEmpty || tTokens.isEmpty then 0
  else
    let inter := (qTokens.filter (fun x => decide (x ∈ tTokens))).length
    (inter : ℚ) / (max 1 qTokens.length : ℕ)

/-- The entity dictionary produced by the classifier and consumed by the
ranker: `entities.get("algorithms", [])` etc. is modelled by the
corresponding field (absent key = empty list). -/
structure Entities where
  algorithms : List String
  diseases : List String
  sections : List String
deriving DecidableEq

/-- One pass of the accumulation loops in `entity_match_boost`: add 0.2
for every listed name occurring as a substring of the (already lowered)
candidate text. -/
def addMatches (t : List Char) (names : List String) (acc : ℚ) : ℚ :=
  names.foldl (fun a nm => if containsSub nm.toList t then a + 1/5 else a) acc

/-- Function `entity_match_boost` from `ranker.py`: 0.2 per matching algorithm
alias, 0.2 per matching disease, capped at 0.6. -/
def entityMatchBoost (text : String) (es : Entities) : ℚ :=
  let t := lowerList text.toList
  min (addMatches t es.diseases (addMatches t es.algorithms 0)) (3/5)

/-- A result row: a Python dict modelled as an association list from field
names to string values (`dict.get` returns the first binding, `none` when
the key is absent). -/
def Row : Type := List (String × String)

instance : DecidableEq Row := by unfold Row; infer_instance

/-- Lookup `r.get(k)` on a row. -/
def rget (r : Row) (k : String) : Option String :=
  (r.find? (fun p => p.1 == k)).map Prod.snd

/-- Python `a or b` specialised to an optional string on the left: `none`
and the empty string are falsy, so the right operand is returned for both. -/
def truthyOr (o : Option String) (rest : String) : String :=
  match o with
  | some s => if s.isEmpty then rest else s
  | none => rest

/-- The scoring target of a row in `score_items` (`ranker.py`):
`r.get("text") or r.get("item") or r.get("model") or ""`. -/
def rowText (r : Row) : String :=
  truthyOr (rget r "text") (truthyOr (rget r "item") (truthyOr (rget r "model") ""))

/-- The fixed domain-tag set used for the proximity boost in `score_items`. -/
def DOMAIN_TAGS : List String :=
  ["Symptoms", "RiskFactors", "DiagnosticTechniques", "CancerTypes",
   "Dataset", "Results", "Conclusion"]

/-- The final score computed for one row inside the loop of `score_items`:
`0.5 * lex + 0.3 * ent + 0.2 * prox` with `prox` 0.2 for domain tags. -/
def finalScore (question tag : String) (es : Entities) (r : Row) : ℚ :=
  let text := rowText r
  let lex := lexicalOverlapScore question text
  let ent := entityMatchBoost text es
  let prox : ℚ := if tag ∈ DOMAIN_TAGS then 1/5 else 0
  1/2 * lex + 3/10 * ent + 1/5 * prox

/-- A scored row: the shallow copy `dict(r)` of the input row together
with the added `_score` and `_tag` fields. -/
structure ScoredRow where
  row : Row
  score : ℚ
  tag : String
deriving DecidableEq

/-- Stable insertion of a row into a list sorted by descending score: the
new row goes before the first element whose score is not larger.  This
models Python `list.sort(key=score, reverse=True)`, which is stable. -/
def insertScored (x : ScoredRow) : List ScoredRow → List ScoredRow
  | [] => [x]
  | y :: ys => if y.score ≤ x.score then x :: y :: ys else y :: insertScored x ys

/-- Stable sort by descending `_score` (Timsort on the score key, reversed
comparison, stability preserved). -/
def sortByScoreDesc : List ScoredRow → List ScoredRow
  | [] => []
  | x :: xs => insertScored x (sortByScoreDesc xs)

/-- The scored list built by the loop of `score_items`, in input order,
before the final sort. -/
def scoredUnsorted (question tag : String) (rows : List Row) (es : Entities) :
    List ScoredRow :=
  rows.map (fun r => ⟨r, finalScore question tag es r, tag⟩)

/-- Function `score_items` from `ranker.py`. -/
def scoreItems (question tag : String) (rows : List Row) (es : Entities) :
    List ScoredRow :=
  sortByScoreDesc (scoredUnsorted question tag rows es)

/-- A query specification from `cypher_builder.py`: tag, Cypher template
and bound parameters. -/
structure QuerySpec where
  tag : String
  query : String
  params : List (String × String)
deriving DecidableEq

/-- Function `build_queries` from `cypher_builder.py`: the if/elif chain appends
one spec per intent (two for `results`), and the fallback `Sections` spec
is appended exactly when the chain appended nothing. -/
def build_queries (intent : String) (entities : Entities) (question_text : String) :
    List QuerySpec :=
  let specs : List QuerySpec :=
    if intent = "symptoms" then
      [⟨"Symptoms",
        "MATCH (:Introduction)-[:MENTIONS_SYMPTOM]->(s:Symptom) RETURN s.name AS item",
        []⟩]
    else if intent = "risk_factors" then
      [⟨"RiskFactors",
        "MATCH (:Introduction)-[:IDENTIFIES_RISK_FACTOR]->(r:RiskFactor) RETURN r.name AS item",
        []⟩]
    else if intent = "diagnostic_techniques" then
      [⟨"DiagnosticTechniques",
        "MATCH (:Introduction)-[:USES_TECHNIQUE]->(t:Technique) RETURN t.name AS item",
        []⟩]
    else if intent = "dataset" then
      [⟨"Dataset",
        "MATCH (:Methodology)-[:USES_DATASET]->(d:Dataset) RETURN d.name AS name, d.source AS source, d.instances AS instances, d.features AS features, d.format AS format",
        []⟩]
    else if intent = "cancer_types" then
      [⟨"CancerTypes",
        "MATCH (:Introduction)-[:DISCUSSES_CANCER_TYPE]->(c:CancerType) RETURN c.name AS item",
        []⟩]
    else if intent = "results" then
      [⟨"Results",
        "MATCH (m:Model)-[:HAS_RESULT]->(r:Result) RETURN coalesce(m.full_name,m.name) AS model, r.metric AS metric, r.accuracy AS accuracy",
        []⟩,
       ⟨"BestModel",
        "MATCH (:Paper)-[:BEST_MODEL]->(m:Model) RETURN coalesce(m.full_name,m.name) AS bestModel",
        []⟩]
    else if intent = "conclusion" then
      [⟨"Conclusion",
        "MATCH (s:Section:Conclusion) RETURN s.name AS name, s.text AS text",
        []⟩]
    else []
  if specs.isEmpty then
    [⟨"Sections",
      "MATCH (s:Section) WHERE toLower(s.text) CONTAINS toLower($q) RETURN s.name AS name, s.text AS text LIMIT 50",
      [("q", question_text)]⟩]
  else specs

/-- The intent labels handled by a specific branch of `build_queries`. -/
def BRANCH_INTENTS : List String :=
  ["symptoms", "risk_factors", "diagnostic_techniques", "dataset",
   "cancer_types", "results", "conclusion"]

/-- The intent table flattened into (intent, keyword) pairs, pairs in
table order and keywords in list order within each pair. -/
def flatIntentTable : List (String × String) :=
  INTENTS.flatMap (fun p => p.2.map (fun kw => (p.1, kw)))

/-- Spec reading of intent detection: the first (intent, keyword) pair of
the flattened table whose keyword is a substring of the normalized
question determines the intent; `generic` when none matches. -/
def detectIntentFirstMatch (question : String) : String :=
  ((flatIntentTable.find?
      (fun p => containsSub p.2.toList (normalizeText question))).map Prod.fst).getD "generic"

/-- Spec reading of the row text target in claim C1: the first PRESENT
field among `text`, `item`, `model` decides, regardless of its value. -/
def rowTextPresenceFirst (r : Row) : String :=
  match rget r "text" with
  | some v => v
  | none =>
    match rget r "item" with
    | some v => v
    | none => (rget r "model").getD ""

/-- Amended reading of the row text target: the first present AND
non-empty (truthy) value among `text`, `item`, `model`, else `""`. -/
def rowTextFirstTruthy (r : Row) : String :=
  ((([rget r "text", rget r "item", rget r "model"].filterMap id).filter
      (fun s => !s.isEmpty)).headD "")

/-- The maximal runs of characters satisfying `p` in a character list.
The `Nat` is fuel making the recursion structural; one unit per consumed
character suffices, and `maximalRuns` instantiates it with the length. -/
def maximalRunsF (p : Char → Bool) : Nat → List Char → List (List Char)
  | _, [] => []
  | 0, _ :: _ => []
  | fuel + 1, c :: cs =>
    if p c then (c :: cs.takeWhile p) :: maximalRunsF p fuel (cs.dropWhile p)
    else maximalRunsF p fuel cs

/-- The maximal runs of characters satisfying `p`, with enough fuel. -/
def maximalRuns (p : Char → Bool) (l : List Char) : List (List Char) :=
  maximalRunsF p l.length l

/-- Tokenization as claim C7 words it: all maximal runs of letters and
hyphens, of length at least 3, in the lower-cased text. -/
def tokenizeClaimC7 (text : String) : List (List Char) :=
  (maximalRuns isTokChar (lowerList text.toList)).filter (fun r => decide (3 ≤ r.length))

/-- The token contributed by one maximal run of letters and hyphens: drop
the leading hyphens; the remaining suffix (which starts at the run's
first letter, if the run has one) is a token iff its length is at
least 3. -/
def runToken (r : List Char) : Option (List Char) :=
  let s := r.dropWhile (fun c => c = '-')
  if 3 ≤ s.length then some s else none

/-- The tokens contributed by all maximal runs of letters and hyphens. -/
def runTokens (l : List Char) : List (List Char) :=
  (maximalRuns isTokChar l).filterMap runToken

/-- Amended tokenization: from each maximal run of letters and hyphens in
the lower-cased text, drop the leading hyphens; the remaining suffix is a
token iff its length is at least 3.  Runs without a letter contribute
nothing. -/
def tokenizeRunSuffix (text : String) : List (List Char) :=
  runTokens (lowerList text.toList)

/-! ### Unfolding lemmas for the fuel-based scanners -/

theorem findallTokF_nil (fuel : Nat) : findallTokF fuel [] = [] := by
  cases fuel <;> rfl

theorem findallTokF_congr :
    ∀ (f1 : Nat), ∀ (f2 : Nat) (l : List Char), l.length ≤ f1 → l.length ≤ f2 →
      findallTokF f1 l = findallTokF f2 l := by
  intro f1
  induction f1 with
  | zero =>
    intro f2 l h1 _
    rw [List.length_eq_zero.mp (Nat.le_zero.mp h1), findallTokF_nil, findallTokF_nil]
  | succ f ih =>
    intro f2 l h1 h2
    cases l with
    | nil => rw [findallTokF_nil, findallTokF_nil]
    | cons c cs =>
      cases f2 with
      | zero => simp at h2
      | succ f2 =>
        simp only [List.length_cons, Nat.succ_le_succ_iff] at h1 h2
        have hdw : (cs.dropWhile isTokChar).length ≤ cs.length :=
          (List.dropWhile_sublist isTokChar).length_le
        simp only [findallTokF]
        split_ifs with ha hl
        · exact congrArg _ (ih f2 _ (le_trans hdw h1) (le_trans hdw h2))
        · exact ih f2 cs h1 h2
        · exact ih f2 cs h1 h2

theorem findallTok_nil : findallTok [] = [] := rfl

theorem findallTok_cons (c : Char) (cs : List Char) :
    findallTok (c :: cs) =
      if c.isAlpha then
        if 2 ≤ (cs.takeWhile isTokChar).length then
          (c :: cs.takeWhile isTokChar) :: findallTok (cs.dropWhile isTokChar)
        else findallTok cs
      else findallTok cs := by
  have hdw : (cs.dropWhile isTokChar).length ≤ cs.length :=
    (List.dropWhile_sublist isTokChar).length_le
  show findallTokF (c :: cs).length (c :: cs) = _
  simp only [List.length_cons, findallTokF]
  split_ifs with ha hl
  · exact congrArg _ (findallTokF_congr _ _ _ hdw le_rfl)
  · exact findallTokF_congr _ _ _ le_rfl le_rfl
  · exact findallTokF_congr _ _ _ le_rfl le_rfl

theorem maximalRunsF_nil (p : Char → Bool) (fuel : Nat) : maximalRunsF p fuel [] = [] := by
  cases fuel <;> rfl

theorem maximalRunsF_congr (p : Char → Bool) :
    ∀ (f1 : Nat), ∀ (f2 : Nat) (l : List Char), l.length ≤ f1 → l.length ≤ f2 →
      maximalRunsF p f1 l = maximalRunsF p f2 l := by
  intro f1
  induction f1 with
  | zero =>
    intro f2 l h1 _
    rw [List.length_eq_zero.mp (Nat.le_zero.mp h1), maximalRunsF_nil, maximalRunsF_nil]
  | succ f ih =>
    intro f2 l h1 h2
    cases l with
    | nil => rw [maximalRunsF_nil, maximalRunsF_nil]
    | cons c cs =>
      cases f2 with
      | zero => simp at h2
      | succ f2 =>
        simp only [List.length_cons, Nat.succ_le_succ_iff] at h1 h2
        have hdw : (cs.dropWhile p).length ≤ cs.length :=
          (List.dropWhile_sublist p).length_le
        simp only [maximalRunsF]
        split_ifs with hp
        · exact congrArg _ (ih f2 _ (le_trans hdw h1) (le_trans hdw h2))
        · exact ih f2 cs h1 h2

theorem maximalRuns_nil (p : Char → Bool) : maximalRuns p [] = [] := rfl

theorem maximalRuns_cons (p : Char → Bool) (c : Char) (cs : List Char) :
    maximalRuns p (c :: cs) =
      if p c then (c :: cs.takeWhile p) :: maximalRuns p (cs.dropWhile p)
      else maximalRuns p cs := by
  have hdw : (cs.dropWhile p).length ≤ cs.length :=
    (List.dropWhile_sublist p).length_le
  show maximalRunsF p (c :: cs).length (c :: cs) = _
  simp only [List.length_cons, maximalRunsF]
  split_ifs with hp
  · exact congrArg _ (maximalRunsF_congr p _ _ _ hdw le_rfl)
  · exact maximalRunsF_congr p _ _ _ le_rfl le_rfl

/-! ### Lemmas about the stable descending sort -/

theorem mem_insertScored {z x : ScoredRow} :
    ∀ {l : List ScoredRow}, z ∈ insertScored x l ↔ z = x ∨ z ∈ l := by
  intro l
  induction l with
  | nil => simp [insertScored]
  | cons y ys ih =>
    by_cases h : y.score ≤ x.score
    · simp [insertScored, h]
    · simp only [insertScored, if_neg h, List.mem_cons, ih]
      tauto

theorem insertScored_perm (x : ScoredRow) :
    ∀ (l : List ScoredRow), (insertScored x l).Perm (x :: l) := by
  intro l
  induction l with
  | nil => simp [insertScored]
  | cons y ys ih =>
    by_cases h : y.score ≤ x.score
    · simp [insertScored, h]
    · rw [insertScored, if_neg h]
      exact (ih.cons y).trans (List.Perm.swap x y ys)

theorem sorted_insertScored (x : ScoredRow) {l : List ScoredRow}
    (h : l.Sorted (fun a b => b.score ≤ a.score)) :
    (insertScored x l).Sorted (fun a b => b.score ≤ a.score) := by
  induction l with
  | nil => simp [insertScored]
  | cons y ys ih =>
    rw [List.sorted_cons] at h
    obtain ⟨hy, hys⟩ := h
    by_cases hc : y.score ≤ x.score
    · rw [insertScored, if_pos hc, List.sorted_cons]
      refine ⟨?_, by rw [List.sorted_cons]; exact ⟨hy, hys⟩⟩
      intro b hb
      rcases List.mem_cons.mp hb with rfl | hb
      · exact hc
      · exact le_trans (hy b hb) hc
    · rw [insertScored, if_neg hc, List.sorted_cons]
      refine ⟨?_, ih hys⟩
      intro b hb
      rcases mem_insertScored.mp hb with rfl | hb
      · exact le_of_lt (lt_of_not_le hc)
      · exact hy b hb

theorem filter_insertScored (s : ℚ) (x : ScoredRow) :
    ∀ (l : List ScoredRow),
      (insertScored x l).filter (fun z => decide (z.score = s)) =
        if x.score = s then x :: l.filter (fun z => decide (z.score = s))
        else l.filter (fun z => decide (z.score = s)) := by
  intro l
  induction l with
  | nil =>
    by_cases hx : x.score = s <;> simp [insertScored, List.filter_cons, hx]
  | cons y ys ih =>
    by_cases hc : y.score ≤ x.score
    · rw [insertScored, if_pos hc]
      by_cases hx : x.score = s
      · simp [List.filter_cons, hx]
      · simp [List.filter_cons, hx]
    · rw [insertScored, if_neg hc]
      by_cases hx : x.score = s
      · have hy : ¬ (y.score = s) := by
          intro hy
          exact hc (by rw [hy, hx])
        simp [List.filter_cons, hx, hy, ih]
      · simp [List.filter_cons, hx, ih]

theorem sortByScoreDesc_perm :
    ∀ (l : List ScoredRow), (sortByScoreDesc l).Perm l := by
  intro l
  induction l with
  | nil => simp [sortByScoreDesc]
  | cons x xs ih =>
    exact (insertScored_perm x (sortByScoreDesc xs)).trans (ih.cons x)

theorem sorted_sortByScoreDesc :
    ∀ (l : List ScoredRow), (sortByScoreDesc l).Sorted (fun a b => b.score ≤ a.score) := by
  intro l
  induction l with
  | nil => simp [sortByScoreDesc]
  | cons x xs ih => exact sorted_insertScored x ih

theorem filter_sortByScoreDesc (s : ℚ) :
    ∀ (l : List ScoredRow),
      (sortByScoreDesc l).filter (fun z => decide (z.score = s)) =
        l.filter (fun z => decide (z.score = s)) := by
  intro l
  induction l with
  | nil => rfl
  | cons x xs ih =>
    rw [sortByScoreDesc, filter_insertScored, List.filter_cons]
    by_cases hx : x.score = s
    · simp [hx, ih]
    · simp [hx, ih]

/-! ### Lemmas about the scoring functions -/

theorem addMatches_cons (t : List Char) (nm : String) (rest : List String) (acc : ℚ) :
    addMatches t (nm :: rest) acc =
      addMatches t rest (if containsSub nm.toList t then acc + 1/5 else acc) := rfl

theorem addMatches_eq (t : List Char) :
    ∀ (names : List String) (acc : ℚ),
      addMatches t names acc =
        acc + (1/5) * ((names.filter (fun nm => containsSub nm.toList t)).length : ℚ) := by
  intro names
  induction names with
  | nil => intro acc; simp [addMatches]
  | cons nm rest ih =>
    intro acc
    rw [addMatches_cons]
    by_cases h : containsSub nm.toList t
    · rw [if_pos h, ih, List.filter_cons, if_pos h]
      push_cast [List.length_cons]
      ring
    · rw [if_neg h, ih, List.filter_cons, if_neg h]

theorem entityMatchBoost_eq (text : String) (es : Entities) :
    entityMatchBoost text es =
      min ((1/5) *
            ((es.algorithms.filter
                (fun nm => containsSub nm.toList (lowerList text.toList))).length : ℚ) +
           (1/5) *
            ((es.diseases.filter
                (fun nm => containsSub nm.toList (lowerList text.toList))).length : ℚ))
          (3/5) := by
  simp only [entityMatchBoost]
  rw [addMatches_eq, addMatches_eq]
  congr 1
  ring

theorem entityMatchBoost_nonneg (text : String) (es : Entities) :
    0 ≤ entityMatchBoost text es := by
  rw [entityMatchBoost_eq]
  refine le_min (by positivity) (by norm_num)

theorem entityMatchBoost_le (text : String) (es : Entities) :
    entityMatchBoost text es ≤ 3/5 := by
  unfold entityMatchBoost
  exact min_le_right _ _

theorem lexicalOverlapScore_nonneg (q t : String) : 0 ≤ lexicalOverlapScore q t := by
  simp only [lexicalOverlapScore]
  split_ifs
  · exact le_refl 0
  · positivity

theorem lexicalOverlapScore_le_one (q t : String) : lexicalOverlapScore q t ≤ 1 := by
  simp only [lexicalOverlapScore]
  split_ifs
  · norm_num
  · rw [div_le_one (by positivity)]
    have h1 : ((tokenize q).dedup.filter
        (fun x => decide (x ∈ (tokenize t).dedup))).length ≤ (tokenize q).dedup.length :=
      List.length_filter_le _ _
    have h2 : (tokenize q).dedup.length ≤ max 1 (tokenize q).dedup.length :=
      le_max_right _ _
    exact_mod_cast le_trans h1 h2

theorem finalScore_eq (question tag : String) (es : Entities) (r : Row) :
    finalScore question tag es r =
      1/2 * lexicalOverlapScore question (rowText r) +
      3/10 * entityMatchBoost (rowText r) es +
      1/5 * (if tag ∈ DOMAIN_TAGS then (1:ℚ)/5 else 0) := rfl

theorem finalScore_nonneg (question tag : String) (es : Entities) (r : Row) :
    0 ≤ finalScore question tag es r := by
  rw [finalScore_eq]
  have h1 := lexicalOverlapScore_nonneg question (rowText r)
  have h2 := entityMatchBoost_nonneg (rowText r) es
  split_ifs <;> linarith

theorem finalScore_le_one (question tag : String) (es : Entities) (r : Row) :
    finalScore question tag es r ≤ 1 := by
  rw [finalScore_eq]
  have h1 := lexicalOverlapScore_le_one question (rowText r)
  have h2 := entityMatchBoost_le (rowText r) es
  split_ifs <;> linarith

theorem mem_scoreItems {question tag : String} {rows : List Row} {es : Entities}
    {x : ScoredRow} (hx : x ∈ scoreItems question tag rows es) :
    ∃ r ∈ rows, x = ⟨r, finalScore question tag es r, tag⟩ := by
  have hmem : x ∈ scoredUnsorted question tag rows es :=
    (sortByScoreDesc_perm _).subset hx
  obtain ⟨r, hr, hxr⟩ := List.mem_map.mp hmem
  exact ⟨r, hr, hxr.symm⟩

/-! ### Equivalence of the regex scan with the run-suffix description -/

theorem runToken_single (c : Char) : runToken [c] = none := by
  by_cases h : c = '-'
  · subst h; rfl
  · simp [runToken, List.dropWhile, h]

theorem runToken_hyphen (r : List Char) : runToken ('-' :: r) = runToken r := by
  simp [runToken, List.dropWhile]

theorem runToken_alpha (c : Char) (r : List Char) (hc : c.isAlpha = true) :
    runToken (c :: r) = if 2 ≤ r.length then some (c :: r) else none := by
  have hne : ¬ (c = '-') := by
    intro h
    subst h
    exact absurd hc (by decide)
  simp only [runToken, List.dropWhile_cons]
  rw [if_neg (show ¬ (decide (c = '-') = true) by simp [hne])]
  simp only [List.length_cons]
  exact if_congr (by omega) rfl rfl

theorem runTokens_nil : runTokens [] = [] := rfl

theorem runTokens_not_tok (c : Char) (cs : List Char) (h : isTokChar c = false) :
    runTokens (c :: cs) = runTokens cs := by
  simp [runTokens, maximalRuns_cons, h]

theorem runTokens_hyphen (cs : List Char) : runTokens ('-' :: cs) = runTokens cs := by
  have htok : isTokChar '-' = true := by decide
  rw [runTokens, maximalRuns_cons, if_pos htok, List.filterMap_cons]
  cases cs with
  | nil =>
    simp [runToken_single, runTokens, maximalRuns_nil]
  | cons d ds =>
    by_cases hd : isTokChar d
    · rw [List.takeWhile_cons_of_pos hd, List.dropWhile_cons_of_pos hd, runToken_hyphen]
      rw [runTokens, maximalRuns_cons, if_pos hd, List.filterMap_cons]
    · rw [List.takeWhile_cons_of_neg hd, List.dropWhile_cons_of_neg hd]
      simp [runToken_single, runTokens]

theorem runTokens_cons_alpha (c : Char) (cs : List Char) (hc : c.isAlpha = true) :
    runTokens (c :: cs) =
      if 2 ≤ (cs.takeWhile isTokChar).length then
        (c :: cs.takeWhile isTokChar) :: runTokens (cs.dropWhile isTokChar)
      else runTokens (cs.dropWhile isTokChar) := by
  have htok : isTokChar c = true := by simp [isTokChar, hc]
  rw [runTokens, maximalRuns_cons, if_pos htok, List.filterMap_cons,
    runToken_alpha c _ hc]
  split_ifs with h
  · rfl
  · rfl

theorem runTokens_short (cs : List Char) (h : ¬ 2 ≤ (cs.takeWhile isTokChar).length) :
    runTokens cs = runTokens (cs.dropWhile isTokChar) := by
  cases htw : cs.takeWhile isTokChar with
  | nil =>
    have hdw : cs.dropWhile isTokChar = cs := by
      have happ := List.takeWhile_append_dropWhile (p := isTokChar) (l := cs)
      rw [htw] at happ
      simpa using happ
    rw [hdw]
  | cons d tl =>
    have htl : tl = [] := by
      rw [htw] at h
      simp only [List.length_cons] at h
      exact List.length_eq_zero.mp (by omega)
    subst htl
    cases cs with
    | nil => simp at htw
    | cons c0 cs0 =>
      by_cases hc0 : isTokChar c0
      · rw [List.takeWhile_cons_of_pos hc0] at htw
        have hc0d : c0 = d := by injection htw
        have htw0 : cs0.takeWhile isTokChar = [] := by injection htw
        have hdw0 : cs0.dropWhile isTokChar = cs0 := by
          have happ := List.takeWhile_append_dropWhile (p := isTokChar) (l := cs0)
          rw [htw0] at happ
          simpa using happ
        rw [List.dropWhile_cons_of_pos hc0, hdw0]
        rw [runTokens, maximalRuns_cons, if_pos hc0, htw0, List.filterMap_cons, hdw0]
        simp [runToken_single, runTokens]
      · rw [List.takeWhile_cons_of_neg hc0] at htw
        exact absurd htw (by simp)

theorem findallTok_eq_runTokens : ∀ (l : List Char), findallTok l = runTokens l := by
  suffices h : ∀ (n : Nat) (l : List Char), l.length ≤ n → findallTok l = runTokens l by
    intro l
    exact h l.length l le_rfl
  intro n
  induction n with
  | zero =>
    intro l hl
    rw [List.length_eq_zero.mp (Nat.le_zero.mp hl)]
    rfl
  | succ n ih =>
    intro l hl
    cases l with
    | nil => rfl
    | cons c cs =>
      simp only [List.length_cons, Nat.succ_le_succ_iff] at hl
      have hdw : (cs.dropWhile isTokChar).length ≤ n :=
        le_trans (List.dropWhile_sublist isTokChar).length_le hl
      rw [findallTok_cons]
      by_cases ha : c.isAlpha
      · rw [if_pos ha, runTokens_cons_alpha c cs ha]
        by_cases h2 : 2 ≤ (cs.takeWhile isTokChar).length
        · rw [if_pos h2, if_pos h2, ih _ hdw]
        · rw [if_neg h2, if_neg h2, ih _ hl, runTokens_short cs h2]
      · rw [if_neg ha, ih _ hl]
        by_cases hc : c = '-'
        · subst hc
          exact (runTokens_hyphen cs).symm
        · have hnt : isTokChar c = false := by simp [isTokChar, ha, hc]
          exact (runTokens_not_tok c cs hnt).symm

/-! ### First-match characterisation of intent detection -/

theorem findIntent_eq_find (q : List Char) :
    ∀ (l : List (String × List String)),
      findIntent q l =
        (((l.flatMap (fun p => p.2.map (fun kw => (p.1, kw)))).find?
            (fun p => containsSub p.2.toList q)).map Prod.fst).getD "generic" := by
  intro l
  induction l with
  | nil => rfl
  | cons p rest ih =>
    obtain ⟨intent, kws⟩ := p
    rw [List.flatMap_cons, List.find?_append]
    by_cases h : kws.any (fun kw => containsSub kw.toList q)
    · rw [findIntent, if_pos h]
      obtain ⟨kw, hkw_mem, hkw⟩ := List.any_eq_true.mp h
      have hsome : ((kws.map (fun kw => (intent, kw))).find?
          (fun p => containsSub p.2.toList q)).isSome := by
        rw [List.find?_isSome]
        exact ⟨(intent, kw), List.mem_map_of_mem _ hkw_mem, hkw⟩
      obtain ⟨res, hres⟩ := Option.isSome_iff_exists.mp hsome
      have hfst : res.1 = intent := by
        have hmem : res ∈ kws.map (fun kw => (intent, kw)) := List.mem_of_find?_eq_some hres
        obtain ⟨kw1, _, hkw1⟩ := List.mem_map.mp hmem
        rw [← hkw1]
      rw [hres]
      simp [hfst]
    · rw [findIntent, if_neg h, ih]
      have hnone : (kws.map (fun kw => (intent, kw))).find?
          (fun p => containsSub p.2.toList q) = none := by
        rw [List.find?_eq_none]
        intro x hx hc
        obtain ⟨kw, hkw_mem, hkw_eq⟩ := List.mem_map.mp hx
        have : kws.any (fun kw => containsSub kw.toList q) := by
          rw [List.any_eq_true]
          refine ⟨kw, hkw_mem, ?_⟩
          rw [← hkw_eq] at hc
          exact hc
        exact h this
      rw [hnone]
      rfl

/-! ### Claim theorems -/

/-- Claim C1, counterexample: a row whose `text` field is present but
empty is scored on its `item` field, so presence of the field does not
decide the fallback. -/
theorem c1_counterexample :
    rowText [("text", ""), ("item", "cough")] ≠
      rowTextPresenceFirst [("text", ""), ("item", "cough")] := by
  decide

/-- Claim C1 (amended): for every row passed to `score_items`, the text
used as the scoring target is the first present AND non-empty value among
the fields `text`, `item` and `model`, else the empty string — truthiness
of the value, not mere presence of the field, decides the fallback. -/
theorem c1_row_text_first_truthy (r : Row) : rowText r = rowTextFirstTruthy r := by
  unfold rowText rowTextFirstTruthy truthyOr
  cases rget r "text" with
  | none =>
    cases rget r "item" with
    | none =>
      cases rget r "model" with
      | none => rfl
      | some v => by_cases hv : v.isEmpty <;> simp [hv]
    | some v =>
      cases rget r "model" with
      | none => by_cases hv : v.isEmpty <;> simp [hv]
      | some w =>
        by_cases hv : v.isEmpty <;> by_cases hw : w.isEmpty <;> simp [hv, hw]
  | some u =>
    cases rget r "item" with
    | none =>
      cases rget r "model" with
      | none => by_cases hu : u.isEmpty <;> simp [hu]
      | some w =>
        by_cases hu : u.isEmpty <;> by_cases hw : w.isEmpty <;> simp [hu, hw]
    | some v =>
      cases rget r "model" with
      | none =>
        by_cases hu : u.isEmpty <;> by_cases hv : v.isEmpty <;> simp [hu, hv]
      | some w =>
        by_cases hu : u.isEmpty <;> by_cases hv : v.isEmpty <;>
          by_cases hw : w.isEmpty <;> simp [hu, hv, hw]

/-- Claim C2: intent detection scans the table pairs in order and the
keywords of each pair in list order; the first keyword occurring as a
substring of the normalized question decides the intent, and `generic` is
returned when no keyword matches. -/
theorem c2_intent_first_match (question : String) :
    detectIntent question = detectIntentFirstMatch question := by
  rw [detectIntent, detectIntentFirstMatch, flatIntentTable]
  exact findIntent_eq_find (normalizeText question) INTENTS

/-- Claim C3: the builder never returns an empty list, and any intent
outside the seven specific branches (in particular `generic`) yields
exactly the single `Sections` fallback spec whose `q` parameter is the
exact, unnormalized question text. -/
theorem c3_nonempty_generic_fallback (intent : String) (es : Entities) (q : String) :
    build_queries intent es q ≠ [] ∧
      (intent ∉ BRANCH_INTENTS →
        build_queries intent es q =
          [⟨"Sections",
            "MATCH (s:Section) WHERE toLower(s.text) CONTAINS toLower($q) RETURN s.name AS name, s.text AS text LIMIT 50",
            [("q", q)]⟩]) := by
  constructor
  · simp only [build_queries]
    split_ifs <;> simp_all
  · intro h
    simp only [BRANCH_INTENTS, List.mem_cons, List.not_mem_nil, or_false, not_or] at h
    obtain ⟨h1, h2, h3, h4, h5, h6, h7⟩ := h
    simp only [build_queries, if_neg h1, if_neg h2, if_neg h3, if_neg h4, if_neg h5,
      if_neg h6, if_neg h7]
    rfl

/-- Witness for C3 at the concrete intent `generic`. -/
theorem c3_witness :
    build_queries "generic" ⟨[], [], []⟩ "Hello World?" ≠ [] ∧
      build_queries "generic" ⟨[], [], []⟩ "Hello World?" =
        [⟨"Sections",
          "MATCH (s:Section) WHERE toLower(s.text) CONTAINS toLower($q) RETURN s.name AS name, s.text AS text LIMIT 50",
          [("q", "Hello World?")]⟩] :=
  ⟨(c3_nonempty_generic_fallback "generic" ⟨[], [], []⟩ "Hello World?").1,
   (c3_nonempty_generic_fallback "generic" ⟨[], [], []⟩ "Hello World?").2 (by decide)⟩

/-- Claim C4: every row scored by `score_items` carries the score
`0.5 * lexical + 0.3 * entity boost + 0.2 * proximity` (proximity 0.2 for
domain tags, 0 otherwise), and this score always lies in [0, 1]. -/
theorem c4_score_formula_and_bounds (question tag : String) (rows : List Row)
    (es : Entities) (x : ScoredRow) (hx : x ∈ scoreItems question tag rows es) :
    x.score =
      1/2 * lexicalOverlapScore question (rowText x.row) +
      3/10 * entityMatchBoost (rowText x.row) es +
      1/5 * (if tag ∈ DOMAIN_TAGS then (1:ℚ)/5 else 0) ∧
    0 ≤ x.score ∧ x.score ≤ 1 := by
  obtain ⟨r, hr, rfl⟩ := mem_scoreItems hx
  exact ⟨finalScore_eq question tag es r, finalScore_nonneg question tag es r,
    finalScore_le_one question tag es r⟩

/-- Witness for C4 on a concrete one-row input. -/
theorem c4_witness :
    ((⟨[("item", "abc")], finalScore "abc" "Symptoms" ⟨[], [], []⟩ [("item", "abc")],
        "Symptoms"⟩ : ScoredRow) ∈
      scoreItems "abc" "Symptoms" [[("item", "abc")]] ⟨[], [], []⟩) ∧
    (finalScore "abc" "Symptoms" ⟨[], [], []⟩ [("item", "abc")] =
        1/2 * lexicalOverlapScore "abc" (rowText [("item", "abc")]) +
        3/10 * entityMatchBoost (rowText [("item", "abc")]) ⟨[], [], []⟩ +
        1/5 * (if "Symptoms" ∈ DOMAIN_TAGS then (1:ℚ)/5 else 0) ∧
      0 ≤ finalScore "abc" "Symptoms" ⟨[], [], []⟩ [("item", "abc")] ∧
      finalScore "abc" "Symptoms" ⟨[], [], []⟩ [("item", "abc")] ≤ 1) := by
  have hmem : (⟨[("item", "abc")],
      finalScore "abc" "Symptoms" ⟨[], [], []⟩ [("item", "abc")], "Symptoms"⟩ : ScoredRow) ∈
      scoreItems "abc" "Symptoms" [[("item", "abc")]] ⟨[], [], []⟩ :=
    List.mem_singleton.mpr rfl
  exact ⟨hmem, c4_score_formula_and_bounds "abc" "Symptoms" _ _ _ hmem⟩

/-- Claim C5: for the intent `results` the builder returns exactly two
specs, tagged `Results` then `BestModel`, both with empty params. -/
theorem c5_results_two_specs (es : Entities) (q : String) :
    (build_queries "results" es q).map QuerySpec.tag = ["Results", "BestModel"] ∧
    (build_queries "results" es q).map QuerySpec.params = [[], []] ∧
    (build_queries "results" es q).length = 2 :=
  ⟨rfl, rfl, rfl⟩

/-- Claim C6: the output of `score_items` is sorted by descending
`_score`, and stably so: for every score value, the rows carrying it keep
the relative order they have in the scored input list. -/
theorem c6_sorted_stable (question tag : String) (rows : List Row) (es : Entities) :
    (scoreItems question tag rows es).Sorted (fun a b => b.score ≤ a.score) ∧
      ∀ s : ℚ,
        (scoreItems question tag rows es).filter (fun x => decide (x.score = s)) =
          (scoredUnsorted question tag rows es).filter (fun x => decide (x.score = s)) :=
  ⟨sorted_sortByScoreDesc _, fun s => filter_sortByScoreDesc s _⟩

/-- Claim C7, counterexample: on the input `-ab` the code produces no
token, while "maximal runs of letters and hyphens of length at least 3"
would produce the run `-ab`. -/
theorem c7_counterexample : tokenize "-ab" ≠ tokenizeClaimC7 "-ab" := by
  decide

/-- Claim C7 (amended): tokenization yields, for each maximal run of
letters and hyphens in the lower-cased input, the suffix of the run that
starts at its first letter (the run with leading hyphens dropped),
provided that suffix has length at least 3; purely-hyphen runs yield
nothing. -/
theorem c7_tokenize_run_suffix (text : String) :
    tokenize text = tokenizeRunSuffix text :=
  findallTok_eq_runTokens (lowerList text.toList)

/-- Claim C8: the entity boost adds 0.2 per matching algorithm alias and
0.2 per matching disease (substring matches against the lower-cased
text), and the result is capped so that it never exceeds 0.6. -/
theorem c8_entity_boost_capped (text : String) (es : Entities) :
    entityMatchBoost text es =
      min ((1/5) *
            ((es.algorithms.filter
                (fun nm => containsSub nm.toList (lowerList text.toList))).length : ℚ) +
           (1/5) *
            ((es.diseases.filter
                (fun nm => containsSub nm.toList (lowerList text.toList))).length : ℚ))
          (3/5) ∧
    entityMatchBoost text es ≤ 3/5 :=
  ⟨entityMatchBoost_eq text es, entityMatchBoost_le text es⟩

/-- Claim C9: the lexical overlap score is 0 when either token set is
empty (in particular against or from the empty string), and otherwise
equals the intersection size divided by `max 1 |question tokens|`; the
function is total. -/
theorem c9_lexical_guard (q t : String) :
    lexicalOverlapScore q "" = 0 ∧
    lexicalOverlapScore "" t = 0 ∧
    ((tokenize q = [] ∨ tokenize t = []) → lexicalOverlapScore q t = 0) ∧
    (tokenize q ≠ [] → tokenize t ≠ [] →
      lexicalOverlapScore q t =
        (((tokenize q).dedup.filter (fun x => decide (x ∈ (tokenize t).dedup))).length : ℚ) /
          ((max 1 (tokenize q).dedup.length : ℕ) : ℚ)) := by
  have hempty : tokenize "" = [] := rfl
  refine ⟨?_, ?_, ?_, ?_⟩
  · simp [lexicalOverlapScore, hempty]
  · simp [lexicalOverlapScore, hempty]
  · intro h
    rcases h with h | h <;> simp [lexicalOverlapScore, h]
  · intro h1 h2
    simp only [lexicalOverlapScore]
    rw [if_neg]
    simp only [Bool.or_eq_true, List.isEmpty_iff, List.dedup_eq_nil, not_or]
    exact ⟨h1, h2⟩

/-- Witness for C9 on concrete nonempty token sets. -/
theorem c9_witness :
    (tokenize "abc def" ≠ [] ∧ tokenize "abc" ≠ []) ∧
      lexicalOverlapScore "abc def" "abc" =
        (((tokenize "abc def").dedup.filter
            (fun x => decide (x ∈ (tokenize "abc").dedup))).length : ℚ) /
          ((max 1 (tokenize "abc def").dedup.length : ℕ) : ℚ) := by
  have h1 : tokenize "abc def" ≠ [] := by decide
  have h2 : tokenize "abc" ≠ [] := by decide
  exact ⟨⟨h1, h2⟩, (c9_lexical_guard "abc def" "abc").2.2.2 h1 h2⟩

/-- Claim C10: `score_items` leaves the input rows intact — its output
contains exactly one scored row per input row (up to the sort, a
permutation), each being the unchanged input row together with the added
`_tag` (equal to the tag argument) and deterministic `_score`. -/
theorem c10_copy_discipline (question tag : String) (rows : List Row) (es : Entities) :
    ((scoreItems question tag rows es).map ScoredRow.row).Perm rows ∧
      ∀ x ∈ scoreItems question tag rows es,
        x.tag = tag ∧ x.row ∈ rows ∧ x.score = finalScore question tag es x.row := by
  constructor
  · have h1 : (scoredUnsorted question tag rows es).map ScoredRow.row = rows := by
      simp [scoredUnsorted, List.map_map, Function.comp_def]
    exact ((sortByScoreDesc_perm _).map ScoredRow.row).trans (by rw [h1])
  · intro x hx
    obtain ⟨r, hr, rfl⟩ := mem_scoreItems hx
    exact ⟨rfl, hr, rfl⟩

/-- Witness for C10 on a concrete one-row input. -/
theorem c10_witness :
    ((scoreItems "abc" "Symptoms" [[("item", "abc")]] ⟨[], [], []⟩).map
        ScoredRow.row).Perm [[("item", "abc")]] ∧
      ((⟨[("item", "abc")], finalScore "abc" "Symptoms" ⟨[], [], []⟩ [("item", "abc")],
          "Symptoms"⟩ : ScoredRow).tag = "Symptoms" ∧
        (⟨[("item", "abc")], finalScore "abc" "Symptoms" ⟨[], [], []⟩ [("item", "abc")],
          "Symptoms"⟩ : ScoredRow).row ∈ [[("item", "abc")]] ∧
        (⟨[("item", "abc")], finalScore "abc" "Symptoms" ⟨[], [], []⟩ [("item", "abc")],
          "Symptoms"⟩ : ScoredRow).score =
          finalScore "abc" "Symptoms" ⟨[], [], []⟩
            (⟨[("item", "abc")],
              finalScore "abc" "Symptoms" ⟨[], [], []⟩ [("item", "abc")],
              "Symptoms"⟩ : ScoredRow).row) := by
  have hmem : (⟨[("item", "abc")],
      finalScore "abc" "Symptoms" ⟨[], [], []⟩ [("item", "abc")], "Symptoms"⟩ : ScoredRow) ∈
      scoreItems "abc" "Symptoms" [[("item", "abc")]] ⟨[], [], []⟩ :=
    List.mem_singleton.mpr rfl
  exact ⟨(c10_copy_discipline "abc" "Symptoms" [[("item", "abc")]] ⟨[], [], []⟩).1,
    (c10_copy_discipline "abc" "Symptoms" [[("item", "abc")]] ⟨[], [], []⟩).2 _ hmem⟩
